import Mathlib

/-!
Shallow embedding of the `buckets` bucketizing library.

The library assigns values of an ordered scalar type to discrete bucket
indices via pluggable strategies (fixed-width, linear, quantile, range,
custom), exposes a default sequence bucketizer, and a lazy iterator
adapter.  Floating-point element types (`f64`, `f32`, and their
`OrderedFloat` wrappers) are modelled by `ℚ`; fixed-width machine
integers by `ℤ` with wrap-around at the `usize` width; a `usize`
subtraction that could overflow (a Rust panic in checked builds) is
modelled by an `Option`-valued checked subtraction.  Rust iterators over
a source sequence are modelled as list-backed iterators whose `next`
removes the head.
-/

namespace Buckets

/-- Width of the target `usize` type (64-bit platform): `2 ^ 64`. -/
def USIZE : ℕ := 2 ^ 64

/-- Models `into_usize` for `f64`, `f32`, `OrderedFloat<f64>` and
`OrderedFloat<f32>` (src/into_usize.rs): all four are `*self as usize`
(for the wrappers via `AsPrimitive`, which is the same cast).  A Rust
float-to-`usize` cast truncates toward zero and saturates: negative
inputs give `0`, inputs at or above `usize::MAX` give `usize::MAX`.
For a non-negative rational, truncation toward zero is the floor. -/
def into_usize (q : ℚ) : ℕ :=
  if q < 0 then 0 else min (⌊q⌋.toNat) (USIZE - 1)

/-- Models `into_usize` for the fixed-width integer representations
`i8..i128`, `u8..u128` (src/into_usize.rs): `*self as usize`, a
two's-complement truncating/sign-extending cast, i.e. reduction of the
mathematical value modulo `2 ^ 64`. -/
def into_usize_int (x : ℤ) : ℕ :=
  (x % (USIZE : ℤ)).toNat

/-- Checked `usize` subtraction: `a - b` when it does not underflow,
`none` where Rust's checked build panics on underflow. -/
def checkedSub (a b : ℕ) : Option ℕ :=
  if b ≤ a then some (a - b) else none

/-- Models Rust's `Iterator::position(pred)` on a list-backed iterator:
index of the first element satisfying `pred`, if any. -/
def position (p : α → Bool) : List α → Option ℕ
  | [] => none
  | x :: xs => if p x then some 0 else (position p xs).map (· + 1)

/-- `FixedWidthBucketizer` (src/bucketizers/fw.rs), element type `f64`
modelled as `ℚ`. -/
structure FixedWidthBucketizer where
  width : ℚ
  offset : ℚ

/-- `FixedWidthBucketizer::new`. -/
def FixedWidthBucketizer.new (width offset : ℚ) : FixedWidthBucketizer :=
  { width := width, offset := offset }

/-- `FixedWidthBucketizer::bucketize`:
`((value - offset) / width).into_usize()`. -/
def FixedWidthBucketizer.bucketize (b : FixedWidthBucketizer) (value : ℚ) : ℕ :=
  into_usize ((value - b.offset) / b.width)

/-- `LinearBucketizer` (src/bucketizers/linear.rs), element type `f64`
modelled as `ℚ`.  `num_buckets` is stored as `usize`. -/
structure LinearBucketizer where
  start : ℚ
  num_buckets : ℕ
  bucket_width : ℚ

/-- `LinearBucketizer::new`: `bucket_width = (end - start) / num_buckets`
computed in the element type, then `num_buckets` converted via
`into_usize`. -/
def LinearBucketizer.new (start stop num_buckets : ℚ) : LinearBucketizer :=
  { start := start
    num_buckets := into_usize num_buckets
    bucket_width := (stop - start) / num_buckets }

/-- `LinearBucketizer::bucketize`: raw index
`((value - start) / bucket_width).into_usize()`, clamped by
`if bucket_index < num_buckets { bucket_index } else { num_buckets - 1 }`.
The `usize` subtraction `num_buckets - 1` is checked (it underflows when
`num_buckets = 0`). -/
def LinearBucketizer.bucketize (b : LinearBucketizer) (value : ℚ) : Option ℕ :=
  let bucket_index := into_usize ((value - b.start) / b.bucket_width)
  if bucket_index < b.num_buckets then some bucket_index
  else checkedSub b.num_buckets 1

/-- `QuantileBucketizer` (src/bucketizers/quantile.rs), generic over the
ordered element type. -/
structure QuantileBucketizer (α : Type) where
  quantiles : List α
  n_quantiles : ℕ

/-- `QuantileBucketizer::new`. -/
def QuantileBucketizer.new (quantiles : List α) (n_quantiles : ℕ) :
    QuantileBucketizer α :=
  { quantiles := quantiles, n_quantiles := n_quantiles }

/-- `QuantileBucketizer::bucketize`:
`quantiles.iter().position(|&q| value < q).unwrap_or(quantiles.len())`. -/
def QuantileBucketizer.bucketize [LinearOrder α] (b : QuantileBucketizer α)
    (value : α) : ℕ :=
  (position (fun quantile => decide (value < quantile)) b.quantiles).getD
    b.quantiles.length

/-- `RangeBucketizer` (src/bucketizers/range.rs), generic over the
ordered element type.  Each pair is an inclusive lower and exclusive
upper bound. -/
structure RangeBucketizer (α : Type) where
  ranges : List (α × α)

/-- `RangeBucketizer::new`. -/
def RangeBucketizer.new (ranges : List (α × α)) : RangeBucketizer α :=
  { ranges := ranges }

/-- `RangeBucketizer::bucketize`: position of the first pair with
`start <= value && value < end`, else `ranges.len() - 1` — a `usize`
subtraction that underflows (checked panic) when `ranges` is empty. -/
def RangeBucketizer.bucketize [LinearOrder α] (b : RangeBucketizer α)
    (value : α) : Option ℕ :=
  match position (fun r => decide (r.1 ≤ value) && decide (value < r.2))
      b.ranges with
  | some val => some val
  | none => checkedSub b.ranges.length 1

/-- `CustomBucketizer` (src/bucketizers/custom.rs): wraps a
caller-supplied function. -/
structure CustomBucketizer (α : Type) where
  bucketizer : α → ℕ

/-- `CustomBucketizer::new`. -/
def CustomBucketizer.new (func : α → ℕ) : CustomBucketizer α :=
  { bucketizer := func }

/-- `CustomBucketizer::bucketize`: direct delegation. -/
def CustomBucketizer.bucketize (b : CustomBucketizer α) (value : α) : ℕ :=
  b.bucketizer value

/-- The default `Bucketize::bucketize_iter` (src/bucketize.rs):
`iter.map(|value| self.bucketize(&value)).collect()`, for a strategy
whose single-value bucketize is `f`.  Every strategy implements
`BucketizeSingle` by some such `f`, so the default is strategy-agnostic. -/
def bucketize_iter (f : α → ℕ) (l : List α) : List ℕ :=
  l.map f

/-- `IntoBuckets` (src/into_buckets.rs): owns the source iterator
(modelled as the list of its remaining elements) and the strategy
(modelled by its single-value bucketize function). -/
structure IntoBuckets (α : Type) where
  inner : List α
  bucketizer : α → ℕ

/-- `IntoBuckets::new`. -/
def IntoBuckets.new (inner : List α) (bucketizer : α → ℕ) : IntoBuckets α :=
  { inner := inner, bucketizer := bucketizer }

/-- `IntoBuckets::next`:
`self.inner.next().map(|value| self.bucketizer.bucketize(&value))`.
Returns the yielded item together with the adapter's successor state. -/
def IntoBuckets.next (s : IntoBuckets α) : Option ℕ × IntoBuckets α :=
  match s.inner with
  | [] => (none, ⟨[], s.bucketizer⟩)
  | x :: xs => (some (s.bucketizer x), ⟨xs, s.bucketizer⟩)

/-- The adapter state after `n` further pulls. -/
def IntoBuckets.pullN (n : ℕ) (s : IntoBuckets α) : IntoBuckets α :=
  match n with
  | 0 => s
  | n + 1 => IntoBuckets.pullN n (IntoBuckets.next s).2

/-- Fully consuming the adapter by repeated pulls (the fuel is the
length of the remaining source, which bounds the number of `some`
yields). -/
def IntoBuckets.collectAux : ℕ → IntoBuckets α → List ℕ
  | 0, _ => []
  | n + 1, s =>
    match IntoBuckets.next s with
    | (none, _) => []
    | (some r, s') => r :: IntoBuckets.collectAux n s'

/-- `collect()` on the adapter: pull until end-of-sequence. -/
def IntoBuckets.collect (s : IntoBuckets α) : List ℕ :=
  IntoBuckets.collectAux s.inner.length s

/-- The five concrete strategies at the representative element type `ℚ`
(the `Bucketize` trait object view).  `bucketize` is `Option`-valued
because the linear and range strategies can hit a checked-subtraction
panic on degenerate configurations. -/
inductive Strategy where
  | fw : FixedWidthBucketizer → Strategy
  | linear : LinearBucketizer → Strategy
  | quantile : QuantileBucketizer ℚ → Strategy
  | range : RangeBucketizer ℚ → Strategy
  | custom : CustomBucketizer ℚ → Strategy

/-- Single-value bucketize of a strategy. -/
def Strategy.bucketize : Strategy → ℚ → Option ℕ
  | Strategy.fw b, v => some (b.bucketize v)
  | Strategy.linear b, v => b.bucketize v
  | Strategy.quantile b, v => some (b.bucketize v)
  | Strategy.range b, v => b.bucketize v
  | Strategy.custom b, v => some (b.bucketize v)

/-- Sequential calls of `bucketize` on one strategy instance, with the
instance state threaded explicitly; `&self` in the source means each
call hands the instance on unchanged. -/
def runBucketize : Strategy → List ℚ → List (Option ℕ) × Strategy
  | s, [] => ([], s)
  | s, v :: vs =>
    (s.bucketize v :: (runBucketize s vs).1, (runBucketize s vs).2)

/-! ### Helper lemmas -/

lemma into_usize_of_neg {q : ℚ} (h : q < 0) : into_usize q = 0 := by
  simp [into_usize, h]

lemma into_usize_of_nonneg_lt {q : ℚ} (h0 : 0 ≤ q) (h1 : q < (USIZE : ℚ)) :
    into_usize q = ⌊q⌋.toNat := by
  have h2 : ⌊q⌋ < (USIZE : ℤ) := Int.floor_lt.mpr (by exact_mod_cast h1)
  have h3 : 0 < USIZE := by norm_num [USIZE]
  simp only [into_usize, if_neg (not_lt.mpr h0)]
  omega

lemma into_usize_natCast {k : ℕ} (hk : k < USIZE) : into_usize (k : ℚ) = k := by
  rw [into_usize_of_nonneg_lt (by positivity) (by exact_mod_cast hk)]
  simp

lemma into_usize_ge {q : ℚ} {k : ℕ} (hq : (k : ℚ) ≤ q) (hk : k < USIZE) :
    k ≤ into_usize q := by
  have h0 : (0 : ℚ) ≤ q := le_trans (by positivity) hq
  have h2 : (k : ℤ) ≤ ⌊q⌋ := Int.le_floor.mpr (by exact_mod_cast hq)
  simp only [into_usize, if_neg (not_lt.mpr h0)]
  omega

lemma checkedSub_of_le {a b : ℕ} (h : b ≤ a) : checkedSub a b = some (a - b) := by
  simp [checkedSub, h]

lemma position_some_lt {p : α → Bool} {l : List α} {i : ℕ}
    (h : position p l = some i) : i < l.length := by
  induction l generalizing i with
  | nil => simp [position] at h
  | cons x xs ih =>
    by_cases hx : p x
    · simp [position, hx] at h
      simp [← h]
    · simp [position, hx] at h
      obtain ⟨j, hj, rfl⟩ := h
      have := ih hj
      simp only [List.length_cons]
      omega

lemma position_some_get {p : α → Bool} {l : List α} {i : ℕ}
    (h : position p l = some i) (hi : i < l.length) :
    p (l.get ⟨i, hi⟩) = true := by
  induction l generalizing i with
  | nil => simp [position] at h
  | cons x xs ih =>
    by_cases hx : p x
    · simp [position, hx] at h
      subst h
      simpa using hx
    · simp [position, hx] at h
      obtain ⟨j, hj, rfl⟩ := h
      exact ih hj (by simpa using hi)

lemma position_some_earlier {p : α → Bool} {l : List α} {i : ℕ}
    (h : position p l = some i) (j : ℕ) (hj : j < l.length) (hji : j < i) :
    p (l.get ⟨j, hj⟩) = false := by
  induction l generalizing i j with
  | nil => simp [position] at h
  | cons x xs ih =>
    by_cases hx : p x
    · simp [position, hx] at h
      omega
    · simp [position, hx] at h
      obtain ⟨i', hi', rfl⟩ := h
      match j with
      | 0 => simpa using eq_false_of_ne_true hx
      | j' + 1 => exact ih hi' j' (by simpa using hj) (by omega)

lemma position_none {p : α → Bool} {l : List α}
    (h : position p l = none) (j : ℕ) (hj : j < l.length) :
    p (l.get ⟨j, hj⟩) = false := by
  induction l generalizing j with
  | nil => simp at hj
  | cons x xs ih =>
    by_cases hx : p x
    · simp [position, hx] at h
    · simp [position, hx] at h
      match j with
      | 0 => simpa using eq_false_of_ne_true hx
      | j' + 1 => exact ih h j' (by simpa using hj)

lemma position_of_get {p : α → Bool} {l : List α} {i : ℕ}
    (hi : i < l.length) (hp : p (l.get ⟨i, hi⟩) = true) :
    ∃ j, position p l = some j ∧ j ≤ i := by
  induction l generalizing i with
  | nil => simp at hi
  | cons x xs ih =>
    by_cases hx : p x
    · exact ⟨0, by simp [position, hx], Nat.zero_le i⟩
    · match i with
      | 0 =>
        rw [show (x :: xs).get ⟨0, hi⟩ = x from rfl] at hp
        exact absurd hp (by simpa using hx)
      | i' + 1 =>
        obtain ⟨j, hj, hji⟩ := ih (by simpa using hi) (by simpa using hp)
        exact ⟨j + 1, by simp [position, hx, hj], by omega⟩

/-! ### Claim theorems -/

/-- Claim C2: for the Fixed-Width strategy with any (nonzero) width and
offset, `bucketize(value)` equals `floor((value - offset) / width)`
converted via the numeric index conversion, with no clamping; a value
exactly on a bucket boundary `offset + k * width` yields index `k`. -/
theorem claim_C2_fixed_width (width offset v : ℚ) (k : ℕ)
    (hw : width ≠ 0) (hk : k < USIZE) :
    (FixedWidthBucketizer.new width offset).bucketize v
      = into_usize ((v - offset) / width)
    ∧ (0 ≤ (v - offset) / width → (v - offset) / width < (USIZE : ℚ) →
        (FixedWidthBucketizer.new width offset).bucketize v
          = (⌊(v - offset) / width⌋).toNat)
    ∧ (FixedWidthBucketizer.new width offset).bucketize
        (offset + (k : ℚ) * width) = k := by
  refine ⟨rfl, fun h0 h1 => into_usize_of_nonneg_lt h0 h1, ?_⟩
  show into_usize ((offset + (k : ℚ) * width - offset) / width) = k
  have harg : (offset + (k : ℚ) * width - offset) / width = (k : ℚ) := by
    field_simp
  rw [harg, into_usize_natCast hk]

/-- Claim C2 witness: width 5, offset 0, boundary value `0 + 2 * 5`
lands in bucket 2. -/
theorem claim_C2_witness :
    ((5 : ℚ) ≠ 0 ∧ (2 : ℕ) < USIZE)
    ∧ (FixedWidthBucketizer.new 5 0).bucketize (0 + ((2 : ℕ) : ℚ) * 5) = 2 :=
  ⟨⟨by norm_num, by norm_num [USIZE]⟩,
    (claim_C2_fixed_width 5 0 12 2 (by norm_num) (by norm_num [USIZE])).2.2⟩

/-- Claim C8: the numeric index conversion is total for the supported
representations; floating-point inputs (here `ℚ`) discard the
fractional part (truncation toward zero, i.e. the floor for non-negative
inputs), negative floating inputs give 0, in-range integers convert
exactly, and integer conversion always lands below the `usize` width. -/
theorem claim_C8_into_usize_total (q : ℚ) (x : ℤ) :
    (q < 0 → into_usize q = 0)
    ∧ (0 ≤ q → q < (USIZE : ℚ) → into_usize q = (⌊q⌋).toNat)
    ∧ (0 ≤ x → x < (USIZE : ℤ) → into_usize_int x = x.toNat)
    ∧ into_usize_int x < USIZE := by
  have hU : (0 : ℤ) < (USIZE : ℤ) := by norm_num [USIZE]
  refine ⟨fun h => into_usize_of_neg h,
    fun h0 h1 => into_usize_of_nonneg_lt h0 h1,
    fun h0 h1 => ?_, ?_⟩
  · simp [into_usize_int, Int.emod_eq_of_lt h0 h1]
  · have h2 : x % (USIZE : ℤ) < (USIZE : ℤ) := Int.emod_lt_of_pos x hU
    simp only [into_usize_int]
    omega

/-- Claim C8 witness: `7/2` truncates to the floor, `-1` converts to 0,
and `-3` converts to some index below the `usize` width. -/
theorem claim_C8_witness :
    ((0 : ℚ) ≤ 7 / 2 ∧ (-1 : ℚ) < 0)
    ∧ into_usize (7 / 2 : ℚ) = (⌊(7 / 2 : ℚ)⌋).toNat
    ∧ into_usize (-1 : ℚ) = 0
    ∧ into_usize_int (-3) < USIZE :=
  ⟨⟨by norm_num, by norm_num⟩,
    (claim_C8_into_usize_total (7 / 2) (-3)).2.1 (by norm_num)
      (by norm_num [USIZE]),
    (claim_C8_into_usize_total (-1) (-3)).1 (by norm_num),
    (claim_C8_into_usize_total (7 / 2) (-3)).2.2.2⟩

/-- Claim C3: the Quantile strategy returns the position of the first
cut point strictly greater than the value, or `quantiles.length` when no
cut point exceeds it; with sorted cut points, a value equal to a cut
point falls into a bucket strictly after that cut point. -/
theorem claim_C3_quantile_first_cut {α : Type} [LinearOrder α]
    (n : ℕ) (qs : List α) (v : α) :
    (QuantileBucketizer.new qs n).bucketize v ≤ qs.length
    ∧ (∀ hr : (QuantileBucketizer.new qs n).bucketize v < qs.length,
        v < qs.get ⟨(QuantileBucketizer.new qs n).bucketize v, hr⟩)
    ∧ (∀ (j : ℕ) (hj : j < qs.length),
        j < (QuantileBucketizer.new qs n).bucketize v → qs.get ⟨j, hj⟩ ≤ v)
    ∧ ((∀ (j : ℕ) (hj : j < qs.length), qs.get ⟨j, hj⟩ ≤ v) →
        (QuantileBucketizer.new qs n).bucketize v = qs.length)
    ∧ (List.Sorted (· ≤ ·) qs →
        ∀ (i : ℕ) (hi : i < qs.length), qs.get ⟨i, hi⟩ = v →
          i < (QuantileBucketizer.new qs n).bucketize v) := by
  cases h : position (fun quantile => decide (v < quantile)) qs with
  | none =>
    have hr : (QuantileBucketizer.new qs n).bucketize v = qs.length := by
      simp [QuantileBucketizer.bucketize, QuantileBucketizer.new, h]
    refine ⟨le_of_eq hr, fun hlt => ?_, fun j hj hjr => ?_, fun _ => hr,
      fun _ i hi _ => ?_⟩
    · rw [hr] at hlt
      exact absurd hlt (lt_irrefl _)
    · have := position_none h j hj
      simpa using le_of_not_lt (by simpa using this)
    · rw [hr]
      exact hi
  | some i =>
    have hlt := position_some_lt h
    have hr : (QuantileBucketizer.new qs n).bucketize v = i := by
      simp [QuantileBucketizer.bucketize, QuantileBucketizer.new, h]
    have hsat : v < qs.get ⟨i, hlt⟩ := by
      simpa using position_some_get h hlt
    refine ⟨hr ▸ le_of_lt hlt, fun hrl => ?_, fun j hj hji => ?_,
      fun hall => ?_, fun hs i' hi' hiv => ?_⟩
    · simp only [hr]
      exact hsat
    · rw [hr] at hji
      have := position_some_earlier h j hj hji
      exact le_of_not_lt (by simpa using this)
    · exact absurd (hall i hlt) (not_le.mpr hsat)
    · rw [hr]
      by_contra hcon
      have hir : i ≤ i' := le_of_not_lt hcon
      have hle : qs.get ⟨i, hlt⟩ ≤ qs.get ⟨i', hi'⟩ := by
        rcases eq_or_lt_of_le hir with heq | hlt2
        · simp [heq]
        · exact List.pairwise_iff_get.mp hs ⟨i, hlt⟩ ⟨i', hi'⟩ hlt2
      rw [hiv] at hle
      exact absurd (lt_of_lt_of_le hsat hle) (lt_irrefl v)

/-- Claim C3 witness: cut points `[25, 50, 75]`; value 50 (equal to a
cut point) lands strictly after index 1, and value 55's bucket is at
most the cut point count. -/
theorem claim_C3_witness :
    List.Sorted (· ≤ ·) [(25 : ℤ), 50, 75]
    ∧ 1 < (QuantileBucketizer.new [(25 : ℤ), 50, 75] 3).bucketize 50
    ∧ (QuantileBucketizer.new [(25 : ℤ), 50, 75] 3).bucketize 55
        ≤ [(25 : ℤ), 50, 75].length :=
  ⟨by decide,
    (claim_C3_quantile_first_cut 3 [(25 : ℤ), 50, 75] 50).2.2.2.2
      (by decide) 1 (by decide) (by decide),
    (claim_C3_quantile_first_cut 3 [(25 : ℤ), 50, 75] 55).1⟩

/-- Claim C4 (amended: non-empty ranges): for the Range strategy with a
non-empty ranges list, `bucketize(value)` raises no failure and returns
either the position of the first pair with `lower <= value < upper`, or,
when no pair contains the value, the last bucket index
`ranges.length - 1`. -/
theorem claim_C4_range_first_match {α : Type} [LinearOrder α]
    (rs : List (α × α)) (v : α) (hne : rs ≠ []) :
    (RangeBucketizer.new rs).bucketize v ≠ none
    ∧ ∀ r, (RangeBucketizer.new rs).bucketize v = some r →
      ((∃ h : r < rs.length,
          (rs.get ⟨r, h⟩).1 ≤ v ∧ v < (rs.get ⟨r, h⟩).2 ∧
          ∀ (j : ℕ) (hj : j < rs.length), j < r →
            ¬((rs.get ⟨j, hj⟩).1 ≤ v ∧ v < (rs.get ⟨j, hj⟩).2))
       ∨ (r = rs.length - 1 ∧
          ∀ (j : ℕ) (hj : j < rs.length),
            ¬((rs.get ⟨j, hj⟩).1 ≤ v ∧ v < (rs.get ⟨j, hj⟩).2))) := by
  have hlen : 1 ≤ rs.length := List.length_pos.mpr hne
  cases h : position (fun r => decide (r.1 ≤ v) && decide (v < r.2)) rs with
  | none =>
    have hb : (RangeBucketizer.new rs).bucketize v = some (rs.length - 1) := by
      simp [RangeBucketizer.bucketize, RangeBucketizer.new, h,
        checkedSub_of_le hlen]
    refine ⟨by simp [hb], fun r hr => Or.inr ⟨?_, fun j hj => ?_⟩⟩
    · rw [hb] at hr
      exact (Option.some_injective _ hr).symm
    · have := position_none h j hj
      simpa using this
  | some i =>
    have hlt := position_some_lt h
    have hb : (RangeBucketizer.new rs).bucketize v = some i := by
      simp [RangeBucketizer.bucketize, RangeBucketizer.new, h]
    have hsat := position_some_get h hlt
    simp only [Bool.and_eq_true, decide_eq_true_eq] at hsat
    refine ⟨by simp [hb], fun r hr => Or.inl ?_⟩
    rw [hb] at hr
    obtain rfl : i = r := Option.some_injective _ hr
    refine ⟨hlt, hsat.1, hsat.2, fun j hj hji => ?_⟩
    have := position_some_earlier h j hj hji
    simpa using this

/-- Claim C4 counterexample: on the empty ranges configuration the
fallback `usize` subtraction underflows, so `bucketize` raises a failure
(returns no index) instead of an index. -/
theorem claim_C4_counterexample :
    (RangeBucketizer.new ([] : List (ℤ × ℤ))).bucketize 0 = none := by
  decide

/-- Claim C4 witness: ranges `[(0,5),(5,10),(10,20),(20,100)]` are
non-empty and value 7 raises no failure. -/
theorem claim_C4_witness :
    [((0 : ℤ), 5), (5, 10), (10, 20), (20, 100)] ≠ ([] : List (ℤ × ℤ))
    ∧ (RangeBucketizer.new
        [((0 : ℤ), 5), (5, 10), (10, 20), (20, 100)]).bucketize 7 ≠ none :=
  ⟨by simp,
    (claim_C4_range_first_match [((0 : ℤ), 5), (5, 10), (10, 20), (20, 100)]
      7 (by simp)).1⟩

/-- Claim C10: with non-empty ranges, the Range strategy's bucketize
always yields an index strictly below `ranges.length` (the fallback
subtraction cannot underflow); on the empty configuration the fallback
subtraction `0 - 1` underflows, so bucketize is not total there. -/
theorem claim_C10_range_bound {α : Type} [LinearOrder α]
    (rs : List (α × α)) (v : α) :
    (rs ≠ [] → ∃ r, (RangeBucketizer.new rs).bucketize v = some r
        ∧ r < rs.length)
    ∧ (RangeBucketizer.new ([] : List (α × α))).bucketize v = none := by
  constructor
  · intro hne
    have hlen : 1 ≤ rs.length := List.length_pos.mpr hne
    cases h : position (fun r => decide (r.1 ≤ v) && decide (v < r.2)) rs with
    | none =>
      refine ⟨rs.length - 1, ?_, by omega⟩
      simp [RangeBucketizer.bucketize, RangeBucketizer.new, h,
        checkedSub_of_le hlen]
    | some i =>
      refine ⟨i, ?_, position_some_lt h⟩
      simp [RangeBucketizer.bucketize, RangeBucketizer.new, h]
  · simp [RangeBucketizer.bucketize, RangeBucketizer.new, position, checkedSub]

/-- Claim C10 witness: a one-range configuration yields an index even
for an uncovered value, while the empty configuration fails. -/
theorem claim_C10_witness :
    (RangeBucketizer.new [((0 : ℤ), 2)]).bucketize 5 ≠ none
    ∧ (RangeBucketizer.new ([] : List (ℤ × ℤ))).bucketize 5 = none := by
  obtain ⟨r, hr, _⟩ := (claim_C10_range_bound [((0 : ℤ), 2)] 5).1 (by simp)
  exact ⟨by simp [hr], (claim_C10_range_bound ([] : List (ℤ × ℤ)) 5).2⟩

/-- Claim C5: once the lazy adapter has yielded end-of-sequence once,
every subsequent pull also yields end-of-sequence, for any source
sequence and any strategy function. -/
theorem claim_C5_adapter_fused {α : Type} (s : IntoBuckets α)
    (h : (IntoBuckets.next s).1 = none) (n : ℕ) :
    (IntoBuckets.next (IntoBuckets.pullN n s)).1 = none := by
  obtain ⟨inner, f⟩ := s
  cases inner with
  | cons x xs => simp [IntoBuckets.next] at h
  | nil =>
    have hfix : ∀ m : ℕ, IntoBuckets.pullN m ⟨[], f⟩ = ⟨[], f⟩ := by
      intro m
      induction m with
      | zero => rfl
      | succ m ih => simpa [IntoBuckets.pullN, IntoBuckets.next] using ih
    rw [hfix n]
    rfl

/-- Claim C5 witness: after three further pulls of an exhausted adapter,
the pull still yields end-of-sequence. -/
theorem claim_C5_witness :
    (IntoBuckets.next (IntoBuckets.pullN 3
      (IntoBuckets.new ([] : List ℕ) (fun _ => 0)))).1 = none :=
  claim_C5_adapter_fused (IntoBuckets.new ([] : List ℕ) (fun _ => 0)) rfl 3

/-- Claim C6: the default sequence bucketizer maps the single-value
bucketize over the input in order: output length equals input length and
entry `i` is `bucketize` of input entry `i`. -/
theorem claim_C6_bucketize_iter_pointwise {α : Type} (f : α → ℕ)
    (l : List α) :
    (bucketize_iter f l).length = l.length
    ∧ ∀ i : ℕ, (bucketize_iter f l)[i]? = (l[i]?).map f := by
  refine ⟨by simp [bucketize_iter], fun i => ?_⟩
  simp [bucketize_iter]

/-- Claim C7: fully consuming the lazy adapter yields exactly the list
produced by the default sequence bucketizer on the same source; each
single pull on a non-exhausted adapter performs exactly one source pull
(consuming precisely the head) and one bucketize call on it. -/
theorem claim_C7_adapter_refines_iter {α : Type} (f : α → ℕ) (l : List α) :
    IntoBuckets.collect (IntoBuckets.new l f) = bucketize_iter f l
    ∧ ∀ (x : α) (xs : List α),
        IntoBuckets.next (IntoBuckets.new (x :: xs) f)
          = (some (f x), IntoBuckets.new xs f) := by
  refine ⟨?_, fun x xs => rfl⟩
  induction l with
  | nil => rfl
  | cons x xs ih =>
    simpa [IntoBuckets.collect, IntoBuckets.collectAux, IntoBuckets.next,
      IntoBuckets.new, bucketize_iter] using ih

/-- Claim C9: two sequential `bucketize` calls with the same value on
the same strategy instance (any of the five concrete strategies) return
the same index, and the calls leave the strategy state unchanged. -/
theorem claim_C9_bucketize_deterministic (s : Strategy) (v : ℚ) :
    (runBucketize s [v, v]).1 = [s.bucketize v, s.bucketize v]
    ∧ (runBucketize s [v, v]).2 = s := by
  simp [runBucketize]

/-- Claim C1: for the Linear strategy (bucket count a positive integer
below the `usize` width, `start < end`), bucketize clamps the computed
index to `[0, num_buckets - 1]`: any value strictly below `start` maps
to bucket 0, any value at or beyond `end` maps to bucket
`num_buckets - 1`, and any value in `[start, end)` maps to the raw
fixed-width index `(value - start) / bucket_width` converted to an
integer. -/
theorem claim_C1_linear_clamps (start stop : ℚ) (k : ℕ) (v : ℚ)
    (hk1 : 1 ≤ k) (hk2 : k < USIZE) (hse : start < stop) :
    (v < start →
      (LinearBucketizer.new start stop (k : ℚ)).bucketize v = some 0)
    ∧ (stop ≤ v →
      (LinearBucketizer.new start stop (k : ℚ)).bucketize v = some (k - 1))
    ∧ (start ≤ v → v < stop →
      (LinearBucketizer.new start stop (k : ℚ)).bucketize v
        = some (into_usize ((v - start)
            / (LinearBucketizer.new start stop (k : ℚ)).bucket_width))) := by
  have hk0 : 0 < k := hk1
  have hkQ : (0 : ℚ) < (k : ℚ) := by exact_mod_cast hk0
  have hkne : (k : ℚ) ≠ 0 := ne_of_gt hkQ
  have hw : 0 < (stop - start) / (k : ℚ) := div_pos (by linarith) hkQ
  have hwk : (k : ℚ) * ((stop - start) / (k : ℚ)) = stop - start := by
    field_simp
  refine ⟨fun hv => ?_, fun hv => ?_, fun h1 h2 => ?_⟩
  · have hbi : into_usize ((v - start) / ((stop - start) / (k : ℚ))) = 0 :=
      into_usize_of_neg (div_neg_of_neg_of_pos (by linarith) hw)
    simp [LinearBucketizer.bucketize, LinearBucketizer.new,
      into_usize_natCast hk2, hbi, hk0]
  · have hq : (k : ℚ) ≤ (v - start) / ((stop - start) / (k : ℚ)) := by
      rw [le_div_iff₀ hw]
      linarith [hwk]
    have hbi : k ≤ into_usize ((v - start) / ((stop - start) / (k : ℚ))) :=
      into_usize_ge hq hk2
    simp only [LinearBucketizer.bucketize, LinearBucketizer.new]
    rw [into_usize_natCast hk2, if_neg (by omega), checkedSub_of_le hk1]
  · have h0 : 0 ≤ (v - start) / ((stop - start) / (k : ℚ)) :=
      div_nonneg (by linarith) hw.le
    have hqk : (v - start) / ((stop - start) / (k : ℚ)) < (k : ℚ) := by
      rw [div_lt_iff₀ hw]
      linarith [hwk]
    have hUq : (v - start) / ((stop - start) / (k : ℚ)) < (USIZE : ℚ) :=
      lt_of_lt_of_le hqk (by exact_mod_cast hk2.le)
    have hflt : ⌊(v - start) / ((stop - start) / (k : ℚ))⌋ < (k : ℤ) :=
      Int.floor_lt.mpr (by exact_mod_cast hqk)
    have hbi : into_usize ((v - start) / ((stop - start) / (k : ℚ))) < k := by
      rw [into_usize_of_nonneg_lt h0 hUq]
      omega
    simp only [LinearBucketizer.bucketize, LinearBucketizer.new]
    rw [into_usize_natCast hk2, if_pos hbi]

/-- Claim C1 witness: start 0, end 20, 4 buckets; value -3 clamps to
bucket 0, value 25 clamps to bucket 3, and value 7 gets the raw
fixed-width index. -/
theorem claim_C1_witness :
    ((1 : ℕ) ≤ 4 ∧ (4 : ℕ) < USIZE ∧ (0 : ℚ) < 20)
    ∧ (LinearBucketizer.new 0 20 ((4 : ℕ) : ℚ)).bucketize (-3) = some 0
    ∧ (LinearBucketizer.new 0 20 ((4 : ℕ) : ℚ)).bucketize 25 = some (4 - 1)
    ∧ (LinearBucketizer.new 0 20 ((4 : ℕ) : ℚ)).bucketize 7
        = some (into_usize ((7 - 0)
            / (LinearBucketizer.new 0 20 ((4 : ℕ) : ℚ)).bucket_width)) :=
  ⟨⟨by norm_num, by norm_num [USIZE], by norm_num⟩,
    (claim_C1_linear_clamps 0 20 4 (-3) (by norm_num) (by norm_num [USIZE])
      (by norm_num)).1 (by norm_num),
    (claim_C1_linear_clamps 0 20 4 25 (by norm_num) (by norm_num [USIZE])
      (by norm_num)).2.1 (by norm_num),
    (claim_C1_linear_clamps 0 20 4 7 (by norm_num) (by norm_num [USIZE])
      (by norm_num)).2.2 (by norm_num) (by norm_num)⟩

end Buckets
